import Mathlib

/-!
Verification of the tomosaic image registration and merging core
(`tomosaic/register/register_translation.py` and `tomosaic/merge/merge.py`)
against its natural-language specification.

Images are shallowly embedded as rational-valued 2D arrays.  Arrays that may
carry the "no data" sentinel (numpy NaN in the source) are embedded with
`Option ℚ` entries, where `none` stands for the sentinel; plain numeric
buffers are embedded with `ℚ` entries.  Machine floats are idealised as exact
rationals throughout, as the properties under scrutiny are structural and
algebraic, not rounding properties.

External library routines (scipy's `gaussian_filter`, the `bicg` sparse
solver) are taken as parameters of the embedded functions.  The collaborators
`arrange_image` and `get_roughshift` live in `tomosaic/register/morph.py`,
which is not part of the sources; they are modelled from the specification
and marked as such.
-/

/-- A 2D array that may carry the "no data" sentinel (`none` = numpy NaN).
`f` is a total function; only the entries with indices below `h` and `w`
correspond to array cells of the source program. -/
@[ext]
structure OImg where
  h : ℕ
  w : ℕ
  f : ℕ → ℕ → Option ℚ

/-- A plain numeric 2D array (no sentinel entries). -/
@[ext]
structure Mat where
  h : ℕ
  w : ℕ
  f : ℕ → ℕ → ℚ

/-- Modelled from the spec: `roughShift(shift) -> integer-rounded shift`
(`tomosaic.register.morph.get_roughshift` is not under the provided sources).
Rounded components that would be negative are clamped to zero, consistent
with the spec's normalization of shifts to be non-negative along the
composition axes. -/
def get_roughshift (s : ℚ × ℚ) : ℕ × ℕ :=
  ((round s.1).toNat, (round s.2).toNat)

/-- Modelled from the spec: `arrange(img1, img2, shift, order) -> canvas` —
"places the image selected by `order` as the base layer; the other is offset
by `shift`; unfilled pixels carry the 'no data' sentinel"; "Canvas shape =
bounding box of both placed sources" (`tomosaic.register.morph.arrange_image`
is not under the provided sources).  `img1` sits at the origin, `img2` at the
integer-rounded shift; `order = 1` gives `img1` precedence on the overlap,
any other order gives `img2` precedence.  `inFootprint2` says pixel `(i, j)`
of the canvas lies inside the placed copy of `img2`. -/
def inFootprint2 (img2 : OImg) (r : ℕ × ℕ) (i j : ℕ) : Prop :=
  r.1 ≤ i ∧ i < r.1 + img2.h ∧ r.2 ≤ j ∧ j < r.2 + img2.w

instance (img2 : OImg) (r : ℕ × ℕ) (i j : ℕ) : Decidable (inFootprint2 img2 r i j) := by
  unfold inFootprint2; infer_instance

/-- Modelled from the spec (see `inFootprint2` above): the canvas-placement
collaborator `arrange(img1, img2, shift, order)`. -/
def arrange_image (img1 img2 : OImg) (shift : ℚ × ℚ) (order : ℕ) : OImg :=
  ⟨max img1.h ((get_roughshift shift).1 + img2.h),
   max img1.w ((get_roughshift shift).2 + img2.w), fun i j =>
    if (i < img1.h ∧ j < img1.w) ∧
        (order = 1 ∨ ¬ inFootprint2 img2 (get_roughshift shift) i j) then
      img1.f i j
    else if inFootprint2 img2 (get_roughshift shift) i j then
      img2.f (i - (get_roughshift shift).1) (j - (get_roughshift shift).2)
    else
      none⟩

/-- Sentinel-respecting product: `NaN` absorbs, as numpy multiplication of a
float with NaN yields NaN (in particular `0 * NaN = NaN`). -/
def omul (x y : Option ℚ) : Option ℚ :=
  match x, y with
  | some a, some b => some (a * b)
  | _, _ => none

/-- Sentinel-respecting sum: `NaN` absorbs, as in numpy float addition. -/
def oadd (x y : Option ℚ) : Option ℚ :=
  match x, y with
  | some a, some b => some (a + b)
  | _, _ => none

/-- Embeds `img_merge_alpha` (merge.py lines 181-201):
`newimg1 = arrange_image(img1, img2, shift, order=1)`,
`newimg2 = arrange_image(img1, img2, shift, order=2)`,
`final_img = alpha * newimg1 + (1 - alpha) * newimg2`. -/
def img_merge_alpha (img1 img2 : OImg) (shift : ℚ × ℚ) (alpha : ℚ) : OImg :=
  let newimg1 := arrange_image img1 img2 shift 1
  let newimg2 := arrange_image img1 img2 shift 2
  ⟨newimg1.h, newimg1.w, fun i j =>
    oadd (omul (some alpha) (newimg1.f i j)) (omul (some (1 - alpha)) (newimg2.f i j))⟩

/-- An image is sentinel-free when every in-range cell holds finite data. -/
def sentinelFree (img : OImg) : Prop :=
  ∀ i j, i < img.h → j < img.w → img.f i j ≠ none

theorem arrange_image_h (img1 img2 : OImg) (shift : ℚ × ℚ) (o : ℕ) :
    (arrange_image img1 img2 shift o).h = max img1.h ((get_roughshift shift).1 + img2.h) := rfl

theorem arrange_image_w (img1 img2 : OImg) (shift : ℚ × ℚ) (o : ℕ) :
    (arrange_image img1 img2 shift o).w = max img1.w ((get_roughshift shift).2 + img2.w) := rfl

theorem arrange_image_none_iff (img1 img2 : OImg) (shift : ℚ × ℚ) (o : ℕ)
    (h1 : sentinelFree img1) (h2 : sentinelFree img2) (i j : ℕ) :
    (arrange_image img1 img2 shift o).f i j = none ↔
      ¬ (i < img1.h ∧ j < img1.w) ∧
      ¬ inFootprint2 img2 (get_roughshift shift) i j := by
  classical
  simp only [arrange_image]
  by_cases hin1 : i < img1.h ∧ j < img1.w
  · by_cases hin2 : inFootprint2 img2 (get_roughshift shift) i j
    · constructor
      · intro hnone
        by_cases ho : o = 1 ∨ ¬ inFootprint2 img2 (get_roughshift shift) i j
        · rw [if_pos ⟨hin1, ho⟩] at hnone
          exact absurd hnone (h1 i j hin1.1 hin1.2)
        · rw [if_neg (by tauto), if_pos hin2] at hnone
          obtain ⟨hA, hB, hC, hD⟩ := hin2
          exact absurd hnone (h2 _ _ (by omega) (by omega))
      · intro h
        exact absurd hin1 h.1
    · rw [if_pos ⟨hin1, Or.inr hin2⟩]
      constructor
      · intro hnone
        exact absurd hnone (h1 i j hin1.1 hin1.2)
      · intro h
        exact absurd hin1 h.1
  · rw [if_neg (by tauto)]
    by_cases hin2 : inFootprint2 img2 (get_roughshift shift) i j
    · rw [if_pos hin2]
      constructor
      · intro hnone
        obtain ⟨hA, hB, hC, hD⟩ := hin2
        exact absurd hnone (h2 _ _ (by omega) (by omega))
      · intro h
        exact absurd hin2 h.2
    · rw [if_neg hin2]
      simp [hin1, hin2]

theorem arrange_image_none_trans (img1 img2 : OImg) (shift : ℚ × ℚ) (o o' : ℕ)
    (h1 : sentinelFree img1) (h2 : sentinelFree img2) (i j : ℕ)
    (h : (arrange_image img1 img2 shift o).f i j = none) :
    (arrange_image img1 img2 shift o').f i j = none := by
  rw [arrange_image_none_iff img1 img2 shift o h1 h2 i j] at h
  rw [arrange_image_none_iff img1 img2 shift o' h1 h2 i j]
  exact h

/-- C5 (amended): for sentinel-free inputs, alpha blending with `alpha = 1`
returns exactly `arrange_image(img1, img2, shift, order=1)` and alpha
blending with `alpha = 0` returns exactly
`arrange_image(img1, img2, shift, order=2)` (at pixels outside both
footprints both sides carry the sentinel).  When an input image itself holds
the sentinel on the overlap, the original claim fails: see
`img_merge_alpha_sentinel_cex`. -/
theorem img_merge_alpha_endpoints (img1 img2 : OImg) (shift : ℚ × ℚ)
    (h1 : sentinelFree img1) (h2 : sentinelFree img2) :
    img_merge_alpha img1 img2 shift 1 = arrange_image img1 img2 shift 1 ∧
    img_merge_alpha img1 img2 shift 0 = arrange_image img1 img2 shift 2 := by
  constructor
  · refine OImg.ext rfl rfl ?_
    funext i j
    show oadd (omul (some 1) ((arrange_image img1 img2 shift 1).f i j))
        (omul (some (1 - 1)) ((arrange_image img1 img2 shift 2).f i j)) =
        (arrange_image img1 img2 shift 1).f i j
    rcases hv1 : (arrange_image img1 img2 shift 1).f i j with _ | a
    · have hv2 := arrange_image_none_trans img1 img2 shift 1 2 h1 h2 i j hv1
      rw [hv2]
      rfl
    · rcases hv2 : (arrange_image img1 img2 shift 2).f i j with _ | b
      · have := arrange_image_none_trans img1 img2 shift 2 1 h1 h2 i j hv2
        rw [this] at hv1
        exact absurd hv1 (by simp)
      · show some (1 * a + (1 - 1) * b) = some a
        norm_num
  · refine OImg.ext rfl rfl ?_
    funext i j
    show oadd (omul (some 0) ((arrange_image img1 img2 shift 1).f i j))
        (omul (some (1 - 0)) ((arrange_image img1 img2 shift 2).f i j)) =
        (arrange_image img1 img2 shift 2).f i j
    rcases hv1 : (arrange_image img1 img2 shift 1).f i j with _ | a
    · have hv2 := arrange_image_none_trans img1 img2 shift 1 2 h1 h2 i j hv1
      rw [hv2]
      rfl
    · rcases hv2 : (arrange_image img1 img2 shift 2).f i j with _ | b
      · rfl
      · show some (0 * a + (1 - 0) * b) = some b
        norm_num

/-- A 1x1 image holding the single finite value 1. -/
def oimgA : OImg := ⟨1, 1, fun _ _ => some 1⟩

/-- A 1x1 image whose single cell carries the "no data" sentinel. -/
def oimgB : OImg := ⟨1, 1, fun _ _ => none⟩

/-- C5 (counterexample): with a sentinel inside `img2` on the overlap,
`img_merge_alpha` with `alpha = 1` produces the sentinel (NaN propagation
through `0 * NaN`) at a pixel where `arrange_image(..., order=1)` holds
`img1`'s finite value, so the two are not equal pixel-for-pixel. -/
theorem img_merge_alpha_sentinel_cex :
    (img_merge_alpha oimgA oimgB (0, 0) 1).f 0 0 = none ∧
    (arrange_image oimgA oimgB (0, 0) 1).f 0 0 = some 1 := by
  constructor <;>
    norm_num [img_merge_alpha, arrange_image, get_roughshift, inFootprint2,
      oimgA, oimgB, omul, oadd]

/-- A 1x1 sentinel-free image holding 2. -/
def oimgC : OImg := ⟨1, 1, fun _ _ => some 2⟩

/-- A 1x1 sentinel-free image holding 3. -/
def oimgD : OImg := ⟨1, 1, fun _ _ => some 3⟩

theorem img_merge_alpha_endpoints_witness :
    sentinelFree oimgC ∧ sentinelFree oimgD ∧
    (img_merge_alpha oimgC oimgD (0, 0) 1 = arrange_image oimgC oimgD (0, 0) 1 ∧
     img_merge_alpha oimgC oimgD (0, 0) 0 = arrange_image oimgC oimgD (0, 0) 2) := by
  have hC : sentinelFree oimgC := fun i j _ _ => by simp [oimgC]
  have hD : sentinelFree oimgD := fun i j _ _ => by simp [oimgD]
  exact ⟨hC, hD, img_merge_alpha_endpoints oimgC oimgD (0, 0) hC hD⟩

/-- The `method` argument of `blend` (merge.py line 85): either a method name
string or a caller-supplied callable of the strategy signature. -/
inductive MethodArg where
  | name (s : String)
  | callable (f : OImg → OImg → (ℚ × ℚ) → List (String × ℚ) → OImg)

/-- The five named blend strategies selected by `_get_func`
(merge.py lines 165-176). -/
inductive BlendStrategy where
  | alphaStrat | maxStrat | minStrat | poissonStrat | pyramidStrat
deriving DecidableEq

/-- Failure modes of `blend`: the two explicit `ValueError`s of the
validation code, plus the `UnboundLocalError` that `_get_func` hits when no
branch assigns `func` (merge.py lines 165-176 have no `else` branch). -/
inductive BlendError where
  | unknownMethod
  | invalidOption (key : String)
  | unboundLocal
deriving DecidableEq

/-- Embeds `allowed_kwargs` (merge.py lines 111-117): the per-method allowed
option keys; `none` for an unrecognized method name. -/
def allowed_kwargs (s : String) : Option (List String) :=
  if s = "alpha" then some ["alpha"]
  else if s = "max" then some []
  else if s = "min" then some []
  else if s = "poisson" then some []
  else if s = "pyramid" then some ["blur", "margin", "depth"]
  else none

/-- Embeds `_get_algorithm_kwargs` (merge.py lines 178-179):
`{'alpha': 1, 'blur': 0.4, 'margin': 50, 'depth': 4}`. -/
def get_algorithm_kwargs (k : String) : ℚ :=
  if k = "alpha" then 1
  else if k = "blur" then 2 / 5
  else if k = "margin" then 50
  else if k = "depth" then 4
  else 0

/-- Embeds `_get_func` (merge.py lines 165-176).  The if/elif chain compares
`method` against the five strategy names and has no fallback assignment, so
any other argument (a callable in particular) leaves `func` unassigned and
the `return func` statement raises `UnboundLocalError`; that fallthrough is
the `none` result. -/
def get_func (method : MethodArg) : Option BlendStrategy :=
  match method with
  | .name "alpha" => some .alphaStrat
  | .name "max" => some .maxStrat
  | .name "min" => some .minStrat
  | .name "poisson" => some .poissonStrat
  | .name "pyramid" => some .pyramidStrat
  | _ => none

/-- The `kwargs.setdefault(kw, kwargs_defaults[kw])` loop of `blend`
(merge.py lines 150-151): every allowed key the caller omitted is appended
with its dispatcher default. -/
def setKwargDefaults (allowedKeys : List String) (kwargs : List (String × ℚ)) :
    List (String × ℚ) :=
  kwargs ++ (allowedKeys.filter fun k => kwargs.all fun p => p.1 ≠ k).map
    fun k => (k, get_algorithm_kwargs k)

/-- Embeds the dispatch logic of `blend` (merge.py lines 85-163) up to the
point where the selected strategy is applied to `(img1, img2, shift)` with
the validated keyword arguments.  The result is the chosen strategy together
with the final keyword-argument list, or the error raised.  The numpy dtype
coercion of provided values (lines 137-145) is value-preserving in the exact
rational idealisation and is omitted. -/
def blend_dispatch (method : MethodArg) (kwargs : List (String × ℚ)) :
    Except BlendError (BlendStrategy × List (String × ℚ)) :=
  match method with
  | .name s =>
    match allowed_kwargs s with
    | none => .error .unknownMethod
    | some allowedKeys =>
      match kwargs.find? (fun p => ¬ allowedKeys.contains p.1) with
      | some p => .error (.invalidOption p.1)
      | none =>
        match get_func (.name s) with
        | some strat => .ok (strat, setKwargDefaults allowedKeys kwargs)
        | none => .error .unboundLocal
  | .callable _ =>
    match get_func method with
    | some strat => .ok (strat, kwargs)
    | none => .error .unboundLocal

/-- C2: `blend` does not support caller-supplied callables, contrary to the
spec and to its own docstring (`method : {str, function}`): the validation
accepts the callable, but `_get_func` falls through all branches of its
if/elif chain without assigning `func`, so `blend` raises
`UnboundLocalError` instead of invoking the callable on
`(img1, img2, shift)`. -/
theorem blend_callable_crashes
    (f : OImg → OImg → (ℚ × ℚ) → List (String × ℚ) → OImg)
    (kwargs : List (String × ℚ)) :
    blend_dispatch (.callable f) kwargs = .error .unboundLocal := rfl

theorem get_func_of_recognized (s : String) (keys : List String)
    (h : allowed_kwargs s = some keys) : ∃ strat, get_func (.name s) = some strat := by
  unfold allowed_kwargs at h
  by_cases h1 : s = "alpha"
  · exact ⟨.alphaStrat, by rw [h1]; rfl⟩
  · by_cases h2 : s = "max"
    · exact ⟨.maxStrat, by rw [h2]; rfl⟩
    · by_cases h3 : s = "min"
      · exact ⟨.minStrat, by rw [h3]; rfl⟩
      · by_cases h4 : s = "poisson"
        · exact ⟨.poissonStrat, by rw [h4]; rfl⟩
        · by_cases h5 : s = "pyramid"
          · exact ⟨.pyramidStrat, by rw [h5]; rfl⟩
          · simp [h1, h2, h3, h4, h5] at h


/-- C9: `blend`'s validation.  (a) An unrecognized method name string raises
the unknown-method `ValueError`; (b) a recognized method given an option key
outside its allowed set raises the invalid-option `ValueError`, naming an
offending key; (c) with all provided keys allowed, dispatch succeeds, every
provided pair is kept, and every omitted allowed key is filled with the
dispatcher defaults `alpha = 1`, `blur = 0.4`, `margin = 50`, `depth = 4`
before the strategy is invoked. -/
theorem blend_validation :
    (∀ s kwargs, allowed_kwargs s = none →
      blend_dispatch (.name s) kwargs = .error .unknownMethod) ∧
    (∀ s keys kwargs k v, allowed_kwargs s = some keys → (k, v) ∈ kwargs →
      k ∉ keys → ∃ badKey, badKey ∉ keys ∧
        blend_dispatch (.name s) kwargs = .error (.invalidOption badKey)) ∧
    (∀ s keys kwargs, allowed_kwargs s = some keys →
      (∀ p ∈ kwargs, p.1 ∈ keys) →
      ∃ strat final, blend_dispatch (.name s) kwargs = .ok (strat, final) ∧
        (∀ p ∈ kwargs, p ∈ final) ∧
        (∀ k ∈ keys, (∀ v, (k, v) ∉ kwargs) → (k, get_algorithm_kwargs k) ∈ final)) ∧
    get_algorithm_kwargs "alpha" = 1 ∧ get_algorithm_kwargs "blur" = 2 / 5 ∧
    get_algorithm_kwargs "margin" = 50 ∧ get_algorithm_kwargs "depth" = 4 := by
  refine ⟨?_, ?_, ?_, rfl, rfl, rfl, rfl⟩
  · intro s kwargs h
    simp only [blend_dispatch, h]
  · intro s keys kwargs k v hs hk hnot
    have hsome : (kwargs.find? fun p => ¬ keys.contains p.1).isSome = true := by
      rw [List.find?_isSome]
      exact ⟨(k, v), hk, by simp [hnot]⟩
    obtain ⟨p, hp⟩ := Option.isSome_iff_exists.mp hsome
    have hpbad : ¬ keys.contains p.1 = true := by
      have := List.find?_some hp
      simpa using this
    refine ⟨p.1, by simpa using hpbad, ?_⟩
    simp only [blend_dispatch, hs, hp]
  · intro s keys kwargs hs hall
    obtain ⟨strat, hstrat⟩ := get_func_of_recognized s keys hs
    have hfind : (kwargs.find? fun p => ¬ keys.contains p.1) = none := by
      rw [List.find?_eq_none]
      intro p hp
      simp [hall p hp]
    refine ⟨strat, setKwargDefaults keys kwargs, ?_, ?_, ?_⟩
    · simp only [blend_dispatch, hs, hfind, hstrat]
    · intro p hp
      exact List.mem_append_left _ hp
    · intro k hk hnone
      refine List.mem_append_right _ ?_
      refine List.mem_map.mpr ⟨k, List.mem_filter.mpr ⟨hk, ?_⟩, rfl⟩
      rw [List.all_eq_true]
      intro p hp
      simp only [decide_eq_true_eq]
      intro hcontra
      have hmem : (p.1, p.2) ∈ kwargs := by simpa using hp
      rw [hcontra] at hmem
      exact hnone p.2 hmem

theorem blend_validation_witness :
    allowed_kwargs "poison" = none ∧
    allowed_kwargs "pyramid" = some ["blur", "margin", "depth"] ∧
    ("alpha", (1 : ℚ)) ∈ [("alpha", (1 : ℚ))] ∧ "alpha" ∉ ["blur", "margin", "depth"] ∧
    (∀ p ∈ [("blur", (1 : ℚ) / 2)], p.1 ∈ ["blur", "margin", "depth"]) ∧
    (blend_dispatch (.name "poison") [] = .error .unknownMethod) ∧
    (∃ badKey, badKey ∉ ["blur", "margin", "depth"] ∧
      blend_dispatch (.name "pyramid") [("alpha", (1 : ℚ))] =
        .error (.invalidOption badKey)) ∧
    (∃ strat final,
      blend_dispatch (.name "pyramid") [("blur", (1 : ℚ) / 2)] = .ok (strat, final) ∧
      (∀ p ∈ [("blur", (1 : ℚ) / 2)], p ∈ final) ∧
      (∀ k ∈ ["blur", "margin", "depth"],
        (∀ v, (k, v) ∉ [("blur", (1 : ℚ) / 2)]) → (k, get_algorithm_kwargs k) ∈ final)) := by
  refine ⟨rfl, rfl, by decide, by decide, by decide, ?_, ?_, ?_⟩
  · exact blend_validation.1 "poison" [] rfl
  · exact blend_validation.2.1 "pyramid" ["blur", "margin", "depth"] [("alpha", 1)]
      "alpha" 1 rfl (by decide) (by decide)
  · exact blend_validation.2.2.1 "pyramid" ["blur", "margin", "depth"]
      [("blur", 1 / 2)] rfl (by decide)

/-- The validation failures of `register_translation`
(register_translation.py lines 165-188): the shape-mismatch `ValueError`,
the `NotImplementedError` for subpixel refinement on non-2D data, and the
`ValueError` for an unknown `space` string. -/
inductive RegError where
  | shapeMismatch
  | unsupportedDimension
  | unknownSpace
deriving DecidableEq

/-- Embeds the argument checks of `register_translation`
(register_translation.py lines 165-188), in source order: first
`src_image.shape != target_image.shape`, then
`src_image.ndim != 2 and upsample_factor > 1`, then the `space` string.
Shapes are lists of axis lengths; `ndim` is the length of the shape. -/
def register_translation_checks (shape1 shape2 : List ℕ) (upsample_factor : ℕ)
    (space : String) : Except RegError Unit :=
  if shape1 ≠ shape2 then .error .shapeMismatch
  else if shape1.length ≠ 2 ∧ 1 < upsample_factor then .error .unsupportedDimension
  else if space = "fourier" ∨ space = "real" then .ok ()
  else .error .unknownSpace

/-- C8 (counterexample): a call whose inputs are 1-dimensional with
`upsample_factor = 2` — so, by the claim, one that must raise the
unsupported-dimension error — but whose shapes also differ, raises the
shape-mismatch error instead, because the shape check runs first. -/
theorem register_checks_order_cex :
    ([3] : List ℕ).length ≠ 2 ∧ 1 < 2 ∧
    register_translation_checks [3] [4] 2 "real" = .error .shapeMismatch ∧
    RegError.shapeMismatch ≠ RegError.unsupportedDimension := by
  refine ⟨by decide, by decide, rfl, by decide⟩

/-- C8 (amended): `register_translation` aborts with no partial result,
raising the shape-mismatch error for every pair of inputs whose shapes
differ, and raising the unsupported-dimension error for every call with
`upsample_factor > 1` on non-2D data whose shapes match (the shape check
runs first, so on inputs with both defects the shape error wins). -/
theorem register_checks_amended :
    (∀ shape1 shape2 u sp, shape1 ≠ shape2 →
      register_translation_checks shape1 shape2 u sp = .error .shapeMismatch) ∧
    (∀ shape1 u sp, shape1.length ≠ 2 → 1 < u →
      register_translation_checks shape1 shape1 u sp = .error .unsupportedDimension) := by
  constructor
  · intro shape1 shape2 u sp h
    simp only [register_translation_checks, if_pos h]
  · intro shape1 u sp hlen hu
    unfold register_translation_checks
    rw [if_neg (by simp), if_pos ⟨hlen, hu⟩]

theorem register_checks_amended_witness :
    (([2, 2] : List ℕ) ≠ [2, 3] ∧
      register_translation_checks [2, 2] [2, 3] 1 "real" = .error .shapeMismatch) ∧
    (([5] : List ℕ).length ≠ 2 ∧ 1 < 20 ∧
      register_translation_checks [5] [5] 20 "real" = .error .unsupportedDimension) := by
  refine ⟨⟨by decide, ?_⟩, ⟨by decide, by decide, ?_⟩⟩
  · exact register_checks_amended.1 [2, 2] [2, 3] 1 "real" (by decide)
  · exact register_checks_amended.2 [5] 20 "real" (by decide) (by decide)

/-- Embeds the value computed and returned by `register_translation`
(register_translation.py lines 176-275) for a pair of 1x1 real-space images
with `upsample_factor = 1` and `down = 0`: the FFT of a 1x1 array is the
identity, the magnitude-argmax over the single-cell correlation surface is
`(0, 0)`, and each axis of length 1 forces the shift component to zero.
`G` stands for scipy's `gaussian_filter` acting on the 1x1 surface.  The
src/target amplitudes and `CCmax` — the ingredients of the documented
`error` and `phasediff` return values — are computed (lines 226-228) but
never returned: the function's final statement is `return shifts`
(line 275), so the complete return value is the bare shift vector. -/
def register_translation_1x1 (a b : ℚ) (G : ℚ → ℚ) : List ℚ :=
  let norm_max := max a b
  let src_freq := a / norm_max
  let target_freq := b / norm_max
  let image_product := src_freq * target_freq / (|src_freq| * |target_freq|)
  let cross_correlation := G |image_product|
  let masked := cross_correlation * 1
  let maxima : ℕ × ℕ := (0, 0)
  let midpoint : ℚ := 0
  let shift0 : ℚ := if (maxima.1 : ℚ) > midpoint then (maxima.1 : ℚ) - 1 else (maxima.1 : ℚ)
  let shift1 : ℚ := if (maxima.2 : ℚ) > midpoint then (maxima.2 : ℚ) - 1 else (maxima.2 : ℚ)
  let src_amp := |src_freq| ^ 2
  let target_amp := |target_freq| ^ 2
  let CCmax := masked
  let shift0 : ℚ := 0
  let shift1 : ℚ := 0
  let shift1 : ℚ := if shift1 < 0 then shift1 + 1 else shift1
  [shift0, shift1]

/-- C1: `register_translation` does not return a registration result with
shift, error and phase difference: its return value is the shift vector
alone.  At the concrete failing input (two equal-shaped 1x1 images) the
complete return value is the two-element shift `[0, 0]`; the RMS error and
phase difference promised by the spec and by the function's own docstring
are computed internally but discarded. -/
theorem register_translation_returns_shift_only (a b : ℚ) (G : ℚ → ℚ) :
    register_translation_1x1 a b G = [0, 0] := by
  simp [register_translation_1x1]

/-- The Boolean mask `img2_boo` built in `img_merge_poisson` (merge.py lines
261-265): `np.ones` of the overlap rectangle's shape with the whole first and
last row and column cleared, so cell `(i, j)` is interior-unknown exactly
when it avoids the rectangle perimeter. -/
def img2_boo_poisson (h w i j : ℕ) : Prop :=
  1 ≤ i ∧ i + 1 < h ∧ 1 ≤ j ∧ j + 1 < w

instance (h w i j : ℕ) : Decidable (img2_boo_poisson h w i j) := by
  unfold img2_boo_poisson; infer_instance

/-- Embeds `img2_count` of `_matrix_builder` (merge.py lines 336-341): a
field of 4 with one subtracted along each of the four edges of the shape. -/
def img2_count (h w i j : ℤ) : ℤ :=
  4 - (if j = 0 then 1 else 0) - (if i = 0 then 1 else 0)
    - (if j = w - 1 then 1 else 0) - (if i = h - 1 then 1 else 0)

/-- Row of the `k`-th interior-unknown cell of the Poisson mask, in row-major
order of the boolean extraction `img2_count[img2_boo]` (interior width is
`w - 2`). -/
def posRow (w k : ℕ) : ℕ := 1 + k / (w - 2)

/-- Column of the `k`-th interior-unknown cell of the Poisson mask. -/
def posCol (w k : ℕ) : ℕ := 1 + k % (w - 2)

/-- Embeds `_matrix_builder` (merge.py lines 333-386) applied to the Poisson
mask `img2_boo_poisson h w`, as the entry function of the assembled
`csc_matrix` (which sums duplicate COO entries).  The first summand is the
diagonal batch `(data, (arange, arange))` with `data = img2_count[img2_boo]`;
the next four are the `-1` batches appended for unknowns whose rolled
up/down/left/right neighbor mask (`img2_u`/`img2_d`/`img2_l`/`img2_r`) is
set, at column offsets `-row_int`, `+row_int`, `-1`, `+1` respectively with
`row_int = shape[1] - 2`. -/
def matrix_builder (h w : ℕ) (r c : ℕ) : ℤ :=
  (if r = c then img2_count h w (posRow w r) (posCol w r) else 0)
  + (if img2_boo_poisson h w (posRow w r - 1) (posCol w r) ∧ r = c + (w - 2) then -1 else 0)
  + (if img2_boo_poisson h w (posRow w r + 1) (posCol w r) ∧ c = r + (w - 2) then -1 else 0)
  + (if img2_boo_poisson h w (posRow w r) (posCol w r - 1) ∧ r = c + 1 then -1 else 0)
  + (if img2_boo_poisson h w (posRow w r) (posCol w r + 1) ∧ c = r + 1 then -1 else 0)

/-- Two grid cells are 4-adjacent. -/
def adjPos (x y : ℕ × ℕ) : Prop :=
  (x.1 = y.1 ∧ (x.2 + 1 = y.2 ∨ y.2 + 1 = x.2)) ∨
  (x.2 = y.2 ∧ (x.1 + 1 = y.1 ∨ y.1 + 1 = x.1))

instance (x y : ℕ × ℕ) : Decidable (adjPos x y) := by
  unfold adjPos; infer_instance

theorem qdecomp_unique {q a b a2 b2 : ℕ} (hb : b < q) (hb2 : b2 < q)
    (h : q * a + b = q * a2 + b2) : a = a2 ∧ b = b2 := by
  rcases Nat.lt_trichotomy a a2 with hlt | heq | hgt
  · have h1 : q * (a + 1) ≤ q * a2 := Nat.mul_le_mul_left q hlt
    have h2 : q * (a + 1) = q * a + q := by ring
    omega
  · subst heq
    omega
  · have h1 : q * (a2 + 1) ≤ q * a := Nat.mul_le_mul_left q hgt
    have h2 : q * (a2 + 1) = q * a2 + q := by ring
    omega

theorem matrix_builder_char_core (h w r c a b a2 b2 : ℕ)
    (hw3 : 3 ≤ w) (hh3 : 3 ≤ h)
    (hr1 : (w - 2) * a + b = r) (hbr : b < w - 2) (har : a < h - 2)
    (hc1 : (w - 2) * a2 + b2 = c) (hbc : b2 < w - 2) (hac : a2 < h - 2) :
    matrix_builder h w r c =
      if r = c then 4
      else if adjPos (1 + a, 1 + b) (1 + a2, 1 + b2) then -1
      else 0 := by
  have hposr : posRow w r = 1 + a := by
    unfold posRow
    rw [← hr1, Nat.mul_add_div (by omega), Nat.div_eq_of_lt hbr]
    omega
  have hposcr : posCol w r = 1 + b := by
    unfold posCol
    rw [← hr1, Nat.mul_add_mod, Nat.mod_eq_of_lt hbr]
  have hdiag : (r = c) ↔ (a = a2 ∧ b = b2) := by
    constructor
    · intro hrc
      exact qdecomp_unique hbr hbc (by omega)
    · rintro ⟨ha, hb⟩
      subst ha
      subst hb
      omega
  have hup : (img2_boo_poisson h w (posRow w r - 1) (posCol w r) ∧ r = c + (w - 2)) ↔
      (a = a2 + 1 ∧ b = b2) := by
    rw [hposr, hposcr]
    unfold img2_boo_poisson
    constructor
    · rintro ⟨hmask, hshift⟩
      refine qdecomp_unique hbr hbc ?_
      have hexp : (w - 2) * (a2 + 1) = (w - 2) * a2 + (w - 2) := by ring
      omega
    · rintro ⟨ha, hb⟩
      have hexp : (w - 2) * (a2 + 1) = (w - 2) * a2 + (w - 2) := by ring
      have hmul : (w - 2) * a = (w - 2) * (a2 + 1) := by rw [ha]
      exact ⟨⟨by omega, by omega, by omega, by omega⟩, by omega⟩
  have hdown : (img2_boo_poisson h w (posRow w r + 1) (posCol w r) ∧ c = r + (w - 2)) ↔
      (a2 = a + 1 ∧ b2 = b) := by
    rw [hposr, hposcr]
    unfold img2_boo_poisson
    constructor
    · rintro ⟨hmask, hshift⟩
      refine qdecomp_unique hbc hbr ?_
      have hexp : (w - 2) * (a + 1) = (w - 2) * a + (w - 2) := by ring
      omega
    · rintro ⟨ha, hb⟩
      have hexp : (w - 2) * (a + 1) = (w - 2) * a + (w - 2) := by ring
      have hmul : (w - 2) * a2 = (w - 2) * (a + 1) := by rw [ha]
      exact ⟨⟨by omega, by omega, by omega, by omega⟩, by omega⟩
  have hleft : (img2_boo_poisson h w (posRow w r) (posCol w r - 1) ∧ r = c + 1) ↔
      (a = a2 ∧ b = b2 + 1) := by
    rw [hposr, hposcr]
    unfold img2_boo_poisson
    constructor
    · rintro ⟨hmask, hshift⟩
      have hb1 : 1 ≤ b := by omega
      have := qdecomp_unique (show b - 1 < w - 2 by omega) hbc
        (show (w - 2) * a + (b - 1) = (w - 2) * a2 + b2 by omega)
      omega
    · rintro ⟨ha, hb⟩
      have hmul : (w - 2) * a = (w - 2) * a2 := by rw [ha]
      exact ⟨⟨by omega, by omega, by omega, by omega⟩, by omega⟩
  have hright : (img2_boo_poisson h w (posRow w r) (posCol w r + 1) ∧ c = r + 1) ↔
      (a2 = a ∧ b2 = b + 1) := by
    rw [hposr, hposcr]
    unfold img2_boo_poisson
    constructor
    · rintro ⟨hmask, hshift⟩
      have hblt : b + 1 < w - 2 := by omega
      have := qdecomp_unique hbc hblt
        (show (w - 2) * a2 + b2 = (w - 2) * a + (b + 1) by omega)
      omega
    · rintro ⟨ha, hb⟩
      have hmul : (w - 2) * a2 = (w - 2) * a := by rw [ha]
      exact ⟨⟨by omega, by omega, by omega, by omega⟩, by omega⟩
  have hadj : adjPos (1 + a, 1 + b) (1 + a2, 1 + b2) ↔
      ((a = a2 + 1 ∧ b = b2) ∨ (a2 = a + 1 ∧ b2 = b) ∨
       (a = a2 ∧ b = b2 + 1) ∨ (a2 = a ∧ b2 = b + 1)) := by
    unfold adjPos
    simp only []
    omega
  unfold matrix_builder
  by_cases hrc : r = c
  · rw [if_pos hrc, if_pos hrc]
    rw [if_neg (fun hcon => by have := hup.mp hcon; omega)]
    rw [if_neg (fun hcon => by have := hdown.mp hcon; omega)]
    rw [if_neg (fun hcon => by have := hleft.mp hcon; omega)]
    rw [if_neg (fun hcon => by have := hright.mp hcon; omega)]
    have hd := hdiag.mp hrc
    rw [hposr, hposcr]
    unfold img2_count
    rw [if_neg (by push_cast; omega), if_neg (by push_cast; omega),
      if_neg (by push_cast; omega), if_neg (by push_cast; omega)]
    ring
  · rw [if_neg hrc, if_neg hrc]
    by_cases hU : a = a2 + 1 ∧ b = b2
    · rw [if_pos (hup.mpr hU)]
      rw [if_neg (fun hcon => by have := hdown.mp hcon; omega)]
      rw [if_neg (fun hcon => by have := hleft.mp hcon; omega)]
      rw [if_neg (fun hcon => by have := hright.mp hcon; omega)]
      rw [if_pos (hadj.mpr (Or.inl hU))]
      ring
    · by_cases hD : a2 = a + 1 ∧ b2 = b
      · rw [if_neg (fun hcon => by have := hup.mp hcon; omega)]
        rw [if_pos (hdown.mpr hD)]
        rw [if_neg (fun hcon => by have := hleft.mp hcon; omega)]
        rw [if_neg (fun hcon => by have := hright.mp hcon; omega)]
        rw [if_pos (hadj.mpr (Or.inr (Or.inl hD)))]
        ring
      · by_cases hL : a = a2 ∧ b = b2 + 1
        · rw [if_neg (fun hcon => by have := hup.mp hcon; omega)]
          rw [if_neg (fun hcon => by have := hdown.mp hcon; omega)]
          rw [if_pos (hleft.mpr hL)]
          rw [if_neg (fun hcon => by have := hright.mp hcon; omega)]
          rw [if_pos (hadj.mpr (Or.inr (Or.inr (Or.inl hL))))]
          ring
        · by_cases hR : a2 = a ∧ b2 = b + 1
          · rw [if_neg (fun hcon => by have := hup.mp hcon; omega)]
            rw [if_neg (fun hcon => by have := hdown.mp hcon; omega)]
            rw [if_neg (fun hcon => by have := hleft.mp hcon; omega)]
            rw [if_pos (hright.mpr hR)]
            rw [if_pos (hadj.mpr (Or.inr (Or.inr (Or.inr hR))))]
            ring
          · rw [if_neg (fun hcon => hU (hup.mp hcon))]
            rw [if_neg (fun hcon => hD (hdown.mp hcon))]
            rw [if_neg (fun hcon => hL (hleft.mp hcon))]
            rw [if_neg (fun hcon => hR (hright.mp hcon))]
            rw [if_neg (fun hcon => by rcases hadj.mp hcon with hx | hx | hx | hx <;> tauto)]
            ring

theorem adjPos_symm (x y : ℕ × ℕ) : adjPos x y ↔ adjPos y x := by
  unfold adjPos
  omega

theorem matrix_builder_char (h w r c : ℕ)
    (hr : r < (h - 2) * (w - 2)) (hc : c < (h - 2) * (w - 2)) :
    matrix_builder h w r c =
      if r = c then 4
      else if adjPos (posRow w r, posCol w r) (posRow w c, posCol w c) then -1
      else 0 := by
  have hq : 0 < w - 2 := by
    rcases Nat.eq_zero_or_pos (w - 2) with h0 | h0
    · rw [h0, Nat.mul_zero] at hr
      omega
    · exact h0
  have hp : 0 < h - 2 := by
    rcases Nat.eq_zero_or_pos (h - 2) with h0 | h0
    · rw [h0, Nat.zero_mul] at hr
      omega
    · exact h0
  have har : r / (w - 2) < h - 2 := by
    by_contra hcon
    push_neg at hcon
    have h1 : (w - 2) * (h - 2) ≤ (w - 2) * (r / (w - 2)) := Nat.mul_le_mul_left _ hcon
    have h2 : (h - 2) * (w - 2) = (w - 2) * (h - 2) := Nat.mul_comm _ _
    have h3 := Nat.div_add_mod r (w - 2)
    omega
  have hac : c / (w - 2) < h - 2 := by
    by_contra hcon
    push_neg at hcon
    have h1 : (w - 2) * (h - 2) ≤ (w - 2) * (c / (w - 2)) := Nat.mul_le_mul_left _ hcon
    have h2 : (h - 2) * (w - 2) = (w - 2) * (h - 2) := Nat.mul_comm _ _
    have h3 := Nat.div_add_mod c (w - 2)
    omega
  have hcore := matrix_builder_char_core h w r c (r / (w - 2)) (r % (w - 2))
    (c / (w - 2)) (c % (w - 2)) (by omega) (by omega)
    (Nat.div_add_mod r (w - 2)) (Nat.mod_lt r hq) har
    (Nat.div_add_mod c (w - 2)) (Nat.mod_lt c hq) hac
  simpa [posRow, posCol] using hcore

/-- C3 (amended): over the interior-unknown pixel set of the Poisson overlap
rectangle, the assembled matrix A is symmetric and every off-diagonal entry
is −1 exactly between two 4-adjacent interior-unknown pixels and 0
otherwise; but every diagonal entry equals 4 — the full five-point stencil
count — rather than the claimed count (2-4) of still-interior-unknown
neighbors: `img2_count`'s edge decrements fall on the rectangle perimeter,
which the interior-unknown mask excludes, so the boolean extraction only
ever reads the value 4. -/
theorem matrix_builder_amended (h w r c : ℕ)
    (hr : r < (h - 2) * (w - 2)) (hc : c < (h - 2) * (w - 2)) :
    matrix_builder h w r c = matrix_builder h w c r ∧
    matrix_builder h w r r = 4 ∧
    (r ≠ c →
      (adjPos (posRow w r, posCol w r) (posRow w c, posCol w c) →
        matrix_builder h w r c = -1) ∧
      (¬ adjPos (posRow w r, posCol w r) (posRow w c, posCol w c) →
        matrix_builder h w r c = 0)) := by
  have hchar := matrix_builder_char h w r c hr hc
  have hchar2 := matrix_builder_char h w c r hc hr
  have hcharrr := matrix_builder_char h w r r hr hr
  refine ⟨?_, ?_, ?_⟩
  · rw [hchar, hchar2]
    by_cases hrc : r = c
    · simp [hrc]
    · rw [if_neg hrc, if_neg (Ne.symm hrc)]
      by_cases hadj : adjPos (posRow w r, posCol w r) (posRow w c, posCol w c)
      · rw [if_pos hadj, if_pos ((adjPos_symm _ _).mp hadj)]
      · rw [if_neg hadj, if_neg (fun hcon => hadj ((adjPos_symm _ _).mp hcon))]
  · rw [hcharrr]
    simp
  · intro hne
    constructor
    · intro hadj
      rw [hchar, if_neg hne, if_pos hadj]
    · intro hadj
      rw [hchar, if_neg hne, if_neg hadj]

theorem matrix_builder_amended_witness :
    (0 : ℕ) < (5 - 2) * (5 - 2) ∧ (1 : ℕ) < (5 - 2) * (5 - 2) ∧
    (matrix_builder 5 5 0 1 = matrix_builder 5 5 1 0 ∧
     matrix_builder 5 5 0 0 = 4 ∧
     ((0 : ℕ) ≠ 1 →
       (adjPos (posRow 5 0, posCol 5 0) (posRow 5 1, posCol 5 1) →
         matrix_builder 5 5 0 1 = -1) ∧
       (¬ adjPos (posRow 5 0, posCol 5 0) (posRow 5 1, posCol 5 1) →
         matrix_builder 5 5 0 1 = 0))) :=
  ⟨by decide, by decide, matrix_builder_amended 5 5 0 1 (by decide) (by decide)⟩

/-- The quantity the claim asserts for the diagonal, following the spec's
words: the number of 4-neighbors of cell `(i, j)` that are themselves still
interior-unknown in the Poisson mask. -/
def interiorUnknownNeighborCount (h w i j : ℕ) : ℤ :=
  (if img2_boo_poisson h w (i - 1) j then 1 else 0)
  + (if img2_boo_poisson h w (i + 1) j then 1 else 0)
  + (if img2_boo_poisson h w i (j - 1) then 1 else 0)
  + (if img2_boo_poisson h w i (j + 1) then 1 else 0)

/-- C3 (counterexample): for the 4x4 overlap rectangle, unknown index 0 sits
at interior cell (1, 1), which has exactly 2 still-interior-unknown
4-neighbors, yet the assembled diagonal entry A[0,0] is 4, so the claimed
"diagonal = count (between 2 and 4) of interior-unknown neighbors" fails. -/
theorem matrix_builder_diag_cex :
    (0 : ℕ) < (4 - 2) * (4 - 2) ∧
    posRow 4 0 = 1 ∧ posCol 4 0 = 1 ∧
    matrix_builder 4 4 0 0 = 4 ∧
    interiorUnknownNeighborCount 4 4 1 1 = 2 ∧
    (4 : ℤ) ≠ 2 := by
  refine ⟨by decide, by decide, by decide, by decide, by decide, by decide⟩

/-- The 5-tap generating vector of `_generating_kernel` (merge.py lines
490-492): `[0.25 - a/2, 0.25, a, 0.25, 0.25 - a/2]`. -/
def w1d (a : ℚ) : ℕ → ℚ
  | 0 => 1 / 4 - a / 2
  | 1 => 1 / 4
  | 2 => a
  | 3 => 1 / 4
  | 4 => 1 / 4 - a / 2
  | _ => 0

/-- The 5x5 outer-product kernel `np.outer(w_1d, w_1d)`. -/
def generating_kernel (a : ℚ) (u v : ℕ) : ℚ := w1d a u * w1d a v

/-- Index reflection of scipy's `boundary='symmetric'` convolution padding:
the signal is extended by half-sample-symmetric reflections tiled
indefinitely (`..., x1, x0, | x0, x1, ..., x_last, | x_last, ...`). -/
def reflectIdx (n : ℕ) (t : ℤ) : ℕ :=
  if n = 0 then 0
  else
    let m := t.emod (2 * n)
    if m < n then m.toNat else (2 * (n : ℤ) - 1 - m).toNat

/-- Embeds `scipy.signal.convolve2d(image, kernel, mode='same',
boundary='symmetric')` with the 5x5 generating kernel (merge.py lines 497
and 506).  The kernel is symmetric under index flip (`w1d` palindromic), so
convolution and correlation coincide; `mode='same'` centers the 5x5 window
at offset 2. -/
def conv2dSymm (a : ℚ) (m : Mat) : Mat :=
  ⟨m.h, m.w, fun i j =>
    ∑ u ∈ Finset.range 5, ∑ v ∈ Finset.range 5,
      generating_kernel a u v *
        m.f (reflectIdx m.h ((i : ℤ) + u - 2)) (reflectIdx m.w ((j : ℤ) + v - 2))⟩

/-- Embeds `_ireduce` (merge.py lines 495-499): convolve with the generating
kernel, then take every second row and column (`[::2, ::2]`, so the output
dimension is the ceiling of half). -/
def ireduce (m : Mat) (blur : ℚ) : Mat :=
  ⟨(m.h + 1) / 2, (m.w + 1) / 2, fun i j => (conv2dSymm blur m).f (2 * i) (2 * j)⟩

/-- Embeds `_iexpand` (merge.py lines 502-507): scatter into a double-size
zero array at even indices, convolve with the generating kernel, and
multiply by 4. -/
def iexpand (m : Mat) (blur : ℚ) : Mat :=
  let double : Mat := ⟨2 * m.h, 2 * m.w, fun i j =>
    if i % 2 = 0 ∧ j % 2 = 0 then m.f (i / 2) (j / 2) else 0⟩
  ⟨2 * m.h, 2 * m.w, fun i j => 4 * (conv2dSymm blur double).f i j⟩

/-- Embeds `_gauss_pyramid` (merge.py lines 510-519) without the mask
pre-smoothing: the original image followed by `levels` successive
reductions. -/
def gauss_pyramid : ℕ → Mat → ℚ → List Mat
  | 0, img, _ => [img]
  | n + 1, img, blur => img :: gauss_pyramid n (ireduce img blur) blur

/-- The conditional trailing-row/column trim applied to an expanded level
before combining it with a target level (merge.py lines 528-531 and
552-555): `np.delete(egu, -1, axis)` once per axis when the expansion
overshoots. -/
def trimTo (e t : Mat) : Mat :=
  let e1 := if t.h < e.h then Mat.mk (e.h - 1) e.w e.f else e
  if t.w < e1.w then Mat.mk e1.h (e1.w - 1) e1.f else e1

/-- Elementwise difference; numpy broadcasting requires equal shapes, so the
result carries the first operand's shape. -/
def matSub (x y : Mat) : Mat := ⟨x.h, x.w, fun i j => x.f i j - y.f i j⟩

/-- Elementwise sum, shape from the first operand. -/
def matAdd (x y : Mat) : Mat := ⟨x.h, x.w, fun i j => x.f i j + y.f i j⟩

/-- Embeds `_lapl_pyramid` (merge.py lines 522-534): each level is the
Gaussian level minus the (trimmed) expansion of the next coarser one; the
coarsest Gaussian level is passed through unchanged (`gauss_pyr.pop()`). -/
def lapl_pyramid : List Mat → ℚ → List Mat
  | [], _ => []
  | [m], _ => [m]
  | m :: m2 :: rest, blur =>
      matSub m (trimTo (iexpand m2 blur) m) :: lapl_pyramid (m2 :: rest) blur

/-- The loop body iterations of `_collapse` (merge.py lines 549-560), viewed
functionally: the list mutation (`pop`, `pop`, `append tmp`) walks the
pyramid from the coarsest level down, so each step expands the accumulator,
trims the overshoot against the next finer level, and adds that level. -/
def collapse_steps (blur : ℚ) : Mat → List Mat → Mat
  | acc, [] => acc
  | acc, m :: rest => collapse_steps blur (matAdd (trimTo (iexpand acc blur) m) m) rest

/-- Embeds `_collapse` (merge.py lines 547-561).  `output` starts as a zero
array of the finest level's shape and is only reassigned inside the loop, so
a single-level pyramid collapses to zeros; otherwise the loop folds from the
coarsest level (the list's last element) down to the finest. -/
def collapse (pyr : List Mat) (blur : ℚ) : Mat :=
  match pyr with
  | [] => ⟨0, 0, fun _ _ => 0⟩
  | [m] => ⟨m.h, m.w, fun _ _ => 0⟩
  | m :: m2 :: rest =>
      collapse_steps blur ((m :: m2 :: rest).getLast (by simp))
        ((m :: m2 :: rest).dropLast.reverse)

theorem trimTo_of_eq (e t : Mat) (hh : e.h = t.h) (hw : e.w = t.w) : trimTo e t = e := by
  simp only [trimTo]
  have h1 : ¬ t.h < e.h := by omega
  rw [if_neg h1]
  rw [if_neg (by omega)]

theorem collapse_step_cancel (g e : Mat) (hh : e.h = g.h) (hw : e.w = g.w) :
    matAdd (trimTo e (matSub g (trimTo e g))) (matSub g (trimTo e g)) = g := by
  have h1 : trimTo e g = e := trimTo_of_eq e g hh hw
  rw [h1]
  have h2 : trimTo e (matSub g e) = e := trimTo_of_eq e (matSub g e) hh hw
  rw [h2]
  refine Mat.ext hh hw ?_
  funext i j
  show e.f i j + (g.f i j - e.f i j) = g.f i j
  ring

theorem collapse_steps_append (blur : ℚ) (acc : Mat) (xs : List Mat) (y : Mat) :
    collapse_steps blur acc (xs ++ [y]) =
      matAdd (trimTo (iexpand (collapse_steps blur acc xs) blur) y) y := by
  induction xs generalizing acc with
  | nil => rfl
  | cons m rest ih =>
    simp only [List.cons_append, collapse_steps]
    exact ih _

theorem collapse_eq_steps (pyr : List Mat) (blur : ℚ) (hne : pyr ≠ [])
    (h2 : 2 ≤ pyr.length) :
    collapse pyr blur = collapse_steps blur (pyr.getLast hne) pyr.dropLast.reverse := by
  match pyr with
  | [] => simp at h2
  | [m] => simp at h2
  | m :: m2 :: rest => rfl

theorem gauss_pyramid_length : ∀ (n : ℕ) (g : Mat) (blur : ℚ),
    (gauss_pyramid n g blur).length = n + 1
  | 0, _, _ => rfl
  | n + 1, g, blur => by
    simp only [gauss_pyramid, List.length_cons, gauss_pyramid_length n]

theorem lapl_pyramid_length : ∀ (xs : List Mat) (blur : ℚ),
    (lapl_pyramid xs blur).length = xs.length
  | [], _ => rfl
  | [_], _ => rfl
  | m :: m2 :: rest, blur => by
    simp only [lapl_pyramid, List.length_cons]
    rw [lapl_pyramid_length (m2 :: rest) blur]
    simp

theorem roundtrip_aux : ∀ (n : ℕ) (g : Mat) (blur : ℚ),
    2 ^ (n + 1) ∣ g.h → 2 ^ (n + 1) ∣ g.w →
    collapse (lapl_pyramid (gauss_pyramid (n + 1) g blur) blur) blur = g := by
  intro n
  induction n with
  | zero =>
    intro g blur hh hw
    obtain ⟨k, hk⟩ := hh
    obtain ⟨k2, hk2⟩ := hw
    have hgh : g.h = 2 * k := by rw [hk]; ring
    have hgw : g.w = 2 * k2 := by rw [hk2]; ring
    have hexph : (iexpand (ireduce g blur) blur).h = g.h := by
      show 2 * ((g.h + 1) / 2) = g.h
      omega
    have hexpw : (iexpand (ireduce g blur) blur).w = g.w := by
      show 2 * ((g.w + 1) / 2) = g.w
      omega
    show matAdd
        (trimTo (iexpand (ireduce g blur) blur)
          (matSub g (trimTo (iexpand (ireduce g blur) blur) g)))
        (matSub g (trimTo (iexpand (ireduce g blur) blur) g)) = g
    exact collapse_step_cancel g _ hexph hexpw
  | succ n ih =>
    intro g blur hh hw
    obtain ⟨k, hk⟩ := hh
    obtain ⟨k2, hk2⟩ := hw
    have hgh : g.h = 2 * (2 ^ (n + 1) * k) := by rw [hk, pow_succ]; ring
    have hgw : g.w = 2 * (2 ^ (n + 1) * k2) := by rw [hk2, pow_succ]; ring
    have hredh : (ireduce g blur).h = 2 ^ (n + 1) * k := by
      show (g.h + 1) / 2 = 2 ^ (n + 1) * k
      omega
    have hredw : (ireduce g blur).w = 2 ^ (n + 1) * k2 := by
      show (g.w + 1) / 2 = 2 ^ (n + 1) * k2
      omega
    have hIH := ih (ireduce g blur) blur ⟨k, hredh⟩ ⟨k2, hredw⟩
    have hexph : (iexpand (ireduce g blur) blur).h = g.h := by
      show 2 * ((g.h + 1) / 2) = g.h
      omega
    have hexpw : (iexpand (ireduce g blur) blur).w = g.w := by
      show 2 * ((g.w + 1) / 2) = g.w
      omega
    have hlapl : lapl_pyramid (gauss_pyramid (n + 2) g blur) blur
        = matSub g (trimTo (iexpand (ireduce g blur) blur) g)
            :: lapl_pyramid (gauss_pyramid (n + 1) (ireduce g blur) blur) blur := rfl
    rw [hlapl]
    have hL'len : (lapl_pyramid (gauss_pyramid (n + 1) (ireduce g blur) blur) blur).length
        = n + 2 := by
      rw [lapl_pyramid_length, gauss_pyramid_length]
    have hL'ne : lapl_pyramid (gauss_pyramid (n + 1) (ireduce g blur) blur) blur ≠ [] := by
      intro hcon
      rw [hcon] at hL'len
      simp at hL'len
    rw [collapse_eq_steps _ blur (by simp) (by simp [hL'len])]
    rw [List.getLast_cons hL'ne]
    obtain ⟨x, xs, hxs⟩ := List.exists_cons_of_ne_nil hL'ne
    have hdrop : (matSub g (trimTo (iexpand (ireduce g blur) blur) g)
          :: lapl_pyramid (gauss_pyramid (n + 1) (ireduce g blur) blur) blur).dropLast
        = matSub g (trimTo (iexpand (ireduce g blur) blur) g)
            :: (lapl_pyramid (gauss_pyramid (n + 1) (ireduce g blur) blur) blur).dropLast := by
      rw [hxs]
      rfl
    rw [hdrop, List.reverse_cons, collapse_steps_append]
    rw [← collapse_eq_steps _ blur hL'ne (by simp [hL'len])]
    rw [hIH]
    exact collapse_step_cancel g _ hexph hexpw

/-- C6 (amended): for every image whose height and width are exact multiples
of `2^depth` with `depth ≥ 1`, collapsing the Laplacian pyramid built from
the image's Gaussian pyramid (same generating kernel, same blur parameter)
reconstructs the image exactly in exact rational arithmetic.  For
`depth = 0` the claim fails (see `pyramid_depth_zero_cex`): `_collapse`
initialises its output to zeros and only reassigns it inside a loop that
never runs on a single-level pyramid. -/
theorem pyramid_roundtrip (img : Mat) (depth : ℕ) (blur : ℚ)
    (hd : 1 ≤ depth) (hh : 2 ^ depth ∣ img.h) (hw : 2 ^ depth ∣ img.w) :
    collapse (lapl_pyramid (gauss_pyramid depth img blur) blur) blur = img := by
  obtain ⟨n, rfl⟩ : ∃ n, depth = n + 1 := ⟨depth - 1, by omega⟩
  exact roundtrip_aux n img blur hh hw

/-- A 2x2 all-ones test image. -/
def mat22 : Mat := ⟨2, 2, fun _ _ => 1⟩

theorem pyramid_roundtrip_witness :
    1 ≤ 1 ∧ 2 ^ 1 ∣ mat22.h ∧ 2 ^ 1 ∣ mat22.w ∧
    collapse (lapl_pyramid (gauss_pyramid 1 mat22 (2 / 5)) (2 / 5)) (2 / 5) = mat22 :=
  ⟨le_refl 1, ⟨1, rfl⟩, ⟨1, rfl⟩,
    pyramid_roundtrip mat22 1 (2 / 5) (le_refl 1) ⟨1, rfl⟩ ⟨1, rfl⟩⟩

/-- A 1x1 test image holding 1. -/
def mat11 : Mat := ⟨1, 1, fun _ _ => 1⟩

/-- C6 (counterexample): with `depth = 0` — for which every image dimension
is an exact multiple of `2^depth = 1` — the collapsed pyramid is the zero
image, not the original: the claim fails as stated because it does not
exclude single-level pyramids. -/
theorem pyramid_depth_zero_cex :
    2 ^ 0 ∣ mat11.h ∧ 2 ^ 0 ∣ mat11.w ∧
    (collapse (lapl_pyramid (gauss_pyramid 0 mat11 (2 / 5)) (2 / 5)) (2 / 5)).f 0 0 = 0 ∧
    mat11.f 0 0 = 1 ∧ (0 : ℚ) ≠ 1 := by
  exact ⟨⟨1, rfl⟩, ⟨1, rfl⟩, rfl, rfl, by norm_num⟩

/-- Cell `(y, x)` of the NaN-padded canvas (`newimg_expand` in `_find_bound`,
merge.py lines 301-303) holds finite data: it must lie inside the canvas and
its entry must not be the sentinel. -/
def cellFinite (img : OImg) (y x : ℤ) : Prop :=
  0 ≤ y ∧ y < img.h ∧ 0 ≤ x ∧ x < img.w ∧ img.f y.toNat x.toNat ≠ none

instance (img : OImg) (y x : ℤ) : Decidable (cellFinite img y x) := by
  unfold cellFinite; infer_instance

/-- Embeds `_find_bound` (merge.py lines 299-321) at rectangle-local cell
`(bi, bj)`: the returned boolean stays `True` unless one of the four edge
loops clears it — top cells with a finite cell just above the rectangle,
right cells with a finite cell just right of it, bottom cells with a finite
cell just below, left cells with a finite cell just left. -/
def find_bound (newimg : OImg) (r0 c0 h2 w2 : ℕ) (bi bj : ℕ) : Prop :=
  ¬ ((bi = 0 ∧ cellFinite newimg ((r0 : ℤ) - 1) ((c0 : ℤ) + bj)) ∨
     (bj = w2 - 1 ∧ cellFinite newimg ((r0 : ℤ) + bi) ((c0 : ℤ) + w2)) ∨
     (bi = h2 - 1 ∧ cellFinite newimg ((r0 : ℤ) + h2) ((c0 : ℤ) + bj)) ∨
     (bj = 0 ∧ cellFinite newimg ((r0 : ℤ) + bi) ((c0 : ℤ) - 1)))

instance (newimg : OImg) (r0 c0 h2 w2 bi bj : ℕ) :
    Decidable (find_bound newimg r0 c0 h2 w2 bi bj) := by
  unfold find_bound; infer_instance

/-- First in-place write of `img_merge_poisson` (merge.py lines 266-270):
rectangle cells whose `_find_bound` flag was cleared (classified
boundary-known) are overwritten with `img1`'s values at the same absolute
canvas position. -/
def poisson_step1 (img1 newimg : OImg) (r0 c0 h2 w2 : ℕ) (i j : ℕ) : Option ℚ :=
  if r0 ≤ i ∧ i < r0 + h2 ∧ c0 ≤ j ∧ j < c0 + w2 ∧
      ¬ find_bound newimg r0 c0 h2 w2 (i - r0) (j - c0) then
    img1.f i j
  else newimg.f i j

/-- Second in-place write (merge.py lines 272-276): perimeter cells still
flagged by `_find_bound` (the boolean XOR `invert(img2_boo) -
invert(img2_boo_part)`) are filled from the Gaussian-blurred `img2`. -/
def poisson_step2 (img1 newimg : OImg) (r0 c0 h2 w2 : ℕ)
    (blurredImg2 : ℕ → ℕ → ℚ) (i j : ℕ) : Option ℚ :=
  if r0 ≤ i ∧ i < r0 + h2 ∧ c0 ≤ j ∧ j < c0 + w2 ∧
      ¬ img2_boo_poisson h2 w2 (i - r0) (j - c0) ∧
      find_bound newimg r0 c0 h2 w2 (i - r0) (j - c0) then
    some (blurredImg2 (i - r0) (j - c0))
  else poisson_step1 img1 newimg r0 c0 h2 w2 i j

/-- Third write (merge.py lines 278-292): the solved vector is scattered
into the interior-unknown cells (`spot[img2_boo] = x` through a view, then
written back), indexed row-major over the interior. -/
def poisson_step3 (img1 newimg : OImg) (r0 c0 h2 w2 : ℕ)
    (blurredImg2 : ℕ → ℕ → ℚ) (x : ℕ → ℚ) (i j : ℕ) : Option ℚ :=
  if r0 ≤ i ∧ i < r0 + h2 ∧ c0 ≤ j ∧ j < c0 + w2 ∧
      img2_boo_poisson h2 w2 (i - r0) (j - c0) then
    some (x ((i - r0 - 1) * (w2 - 2) + (j - c0 - 1)))
  else poisson_step2 img1 newimg r0 c0 h2 w2 blurredImg2 i j

/-- Embeds `img_merge_poisson` (merge.py lines 253-293).  `blurredImg2`
stands for the external `scipy.ndimage.gaussian_filter(img2, 10)` and `x`
for the solution vector returned by the external `scipy` `bicg` solver.
The three layered overrides mirror the three in-place writes into `newimg`;
the final `newimg[...] = spot` writes back through a view and leaves the
perimeter exactly as the earlier writes set it. -/
def img_merge_poisson (img1 img2 : OImg) (shift : ℚ × ℚ)
    (blurredImg2 : ℕ → ℕ → ℚ) (x : ℕ → ℚ) : OImg :=
  let newimg := arrange_image img1 img2 shift 1
  if |shift.1| < 10 ∧ |shift.2| < 10 then newimg
  else
    ⟨newimg.h, newimg.w,
      poisson_step3 img1 newimg (get_roughshift shift).1 (get_roughshift shift).2
        img2.h img2.w blurredImg2 x⟩

/-- The claim's premise, in its own words: rectangle-boundary cell
`(bi, bj)` has a 4-adjacent cell outside the overlap rectangle that holds
finite (non-sentinel) data on the canvas. -/
def hasFiniteExternalNeighbor (canvas : OImg) (r0 c0 h2 w2 bi bj : ℕ) : Prop :=
  (bi = 0 ∧ cellFinite canvas ((r0 : ℤ) + bi - 1) ((c0 : ℤ) + bj)) ∨
  (bi = h2 - 1 ∧ cellFinite canvas ((r0 : ℤ) + bi + 1) ((c0 : ℤ) + bj)) ∨
  (bj = 0 ∧ cellFinite canvas ((r0 : ℤ) + bi) ((c0 : ℤ) + bj - 1)) ∨
  (bj = w2 - 1 ∧ cellFinite canvas ((r0 : ℤ) + bi) ((c0 : ℤ) + bj + 1))

instance (canvas : OImg) (r0 c0 h2 w2 bi bj : ℕ) :
    Decidable (hasFiniteExternalNeighbor canvas r0 c0 h2 w2 bi bj) := by
  unfold hasFiniteExternalNeighbor; infer_instance

/-- C7: when the shift activates Poisson blending, every output pixel on the
overlap rectangle's boundary that has a 4-adjacent cell outside the
rectangle holding finite (non-sentinel) canvas data equals `img1`'s value at
that position exactly, for any solver output and any blurred fallback. -/
theorem poisson_boundary_pixels (img1 img2 : OImg) (shift : ℚ × ℚ)
    (blurredImg2 : ℕ → ℕ → ℚ) (x : ℕ → ℚ) (bi bj : ℕ)
    (hactive : ¬ (|shift.1| < 10 ∧ |shift.2| < 10))
    (hbi : bi < img2.h) (hbj : bj < img2.w)
    (hperim : bi = 0 ∨ bi = img2.h - 1 ∨ bj = 0 ∨ bj = img2.w - 1)
    (hext : hasFiniteExternalNeighbor (arrange_image img1 img2 shift 1)
        (get_roughshift shift).1 (get_roughshift shift).2 img2.h img2.w bi bj) :
    (img_merge_poisson img1 img2 shift blurredImg2 x).f
        ((get_roughshift shift).1 + bi) ((get_roughshift shift).2 + bj) =
      img1.f ((get_roughshift shift).1 + bi) ((get_roughshift shift).2 + bj) := by
  have hknown : ¬ find_bound (arrange_image img1 img2 shift 1)
      (get_roughshift shift).1 (get_roughshift shift).2 img2.h img2.w bi bj := by
    unfold find_bound
    push_neg
    rcases hext with ⟨hb, hfin⟩ | ⟨hb, hfin⟩ | ⟨hb, hfin⟩ | ⟨hb, hfin⟩
    · refine Or.inl ⟨hb, ?_⟩
      have heq : ((get_roughshift shift).1 : ℤ) + bi - 1 = ((get_roughshift shift).1 : ℤ) - 1 := by
        rw [hb]; ring
      rwa [heq] at hfin
    · refine Or.inr (Or.inr (Or.inl ⟨hb, ?_⟩))
      have heq : ((get_roughshift shift).1 : ℤ) + bi + 1
          = ((get_roughshift shift).1 : ℤ) + img2.h := by
        rw [hb]; push_cast; omega
      rwa [heq] at hfin
    · refine Or.inr (Or.inr (Or.inr ⟨hb, ?_⟩))
      have heq : ((get_roughshift shift).2 : ℤ) + bj - 1 = ((get_roughshift shift).2 : ℤ) - 1 := by
        rw [hb]; ring
      rwa [heq] at hfin
    · refine Or.inr (Or.inl ⟨hb, ?_⟩)
      have heq : ((get_roughshift shift).2 : ℤ) + bj + 1
          = ((get_roughshift shift).2 : ℤ) + img2.w := by
        rw [hb]; push_cast; omega
      rwa [heq] at hfin
  have hnotint : ¬ img2_boo_poisson img2.h img2.w bi bj := by
    unfold img2_boo_poisson
    omega
  unfold img_merge_poisson
  rw [if_neg hactive]
  show poisson_step3 img1 (arrange_image img1 img2 shift 1)
      (get_roughshift shift).1 (get_roughshift shift).2 img2.h img2.w blurredImg2 x
      ((get_roughshift shift).1 + bi) ((get_roughshift shift).2 + bj) = _
  unfold poisson_step3
  rw [if_neg (by
    simp only [Nat.add_sub_cancel_left]
    intro hcon
    exact hnotint hcon.2.2.2.2)]
  unfold poisson_step2
  rw [if_neg (by
    simp only [Nat.add_sub_cancel_left]
    intro hcon
    exact hknown hcon.2.2.2.2.2)]
  unfold poisson_step1
  rw [if_pos (by
    simp only [Nat.add_sub_cancel_left]
    exact ⟨Nat.le_add_right _ _, by omega, Nat.le_add_right _ _, by omega, hknown⟩)]

/-- A 3x11 all-finite canvas-side image for the Poisson witness. -/
def pimg1 : OImg := ⟨3, 11, fun _ _ => some 1⟩

/-- A 2x2 all-finite tile for the Poisson witness. -/
def pimg2 : OImg := ⟨2, 2, fun _ _ => some 5⟩

theorem poisson_boundary_pixels_witness :
    ¬ (|(0 : ℚ)| < 10 ∧ |(10 : ℚ)| < 10) ∧
    0 < pimg2.h ∧ 0 < pimg2.w ∧
    hasFiniteExternalNeighbor (arrange_image pimg1 pimg2 (0, 10) 1)
      (get_roughshift (0, 10)).1 (get_roughshift (0, 10)).2 pimg2.h pimg2.w 0 0 ∧
    (img_merge_poisson pimg1 pimg2 (0, 10) (fun _ _ => 0) (fun _ => 0)).f
        ((get_roughshift (0, 10)).1 + 0) ((get_roughshift (0, 10)).2 + 0) =
      pimg1.f ((get_roughshift (0, 10)).1 + 0) ((get_roughshift (0, 10)).2 + 0) := by
  have hrs : get_roughshift ((0 : ℚ), (10 : ℚ)) = (0, 10) := by
    unfold get_roughshift
    norm_num [round_eq]
    rfl
  have hactive : ¬ (|(0 : ℚ)| < 10 ∧ |(10 : ℚ)| < 10) := by norm_num
  have hext : hasFiniteExternalNeighbor (arrange_image pimg1 pimg2 (0, 10) 1)
      (get_roughshift (0, 10)).1 (get_roughshift (0, 10)).2 pimg2.h pimg2.w 0 0 := by
    refine Or.inr (Or.inr (Or.inl ⟨rfl, ?_⟩))
    rw [hrs]
    unfold cellFinite
    refine ⟨by norm_num, by norm_num [arrange_image_h, hrs, pimg1, pimg2], by norm_num,
      by norm_num [arrange_image_w, hrs, pimg1, pimg2], ?_⟩
    norm_num [arrange_image, inFootprint2, hrs, pimg1, pimg2]
    simp
  exact ⟨hactive, by norm_num [pimg2], by norm_num [pimg2], hext,
    poisson_boundary_pixels pimg1 pimg2 (0, 10) (fun _ _ => 0) (fun _ => 0) 0 0 hactive
      (by norm_num [pimg2]) (by norm_num [pimg2]) (Or.inl rfl) hext⟩

/-- Elementwise product, shape from the first operand. -/
def matMulPt (x y : Mat) : Mat := ⟨x.h, x.w, fun i j => x.f i j * y.f i j⟩

/-- The array `1 - mask` of `_blend` (merge.py line 542). -/
def oneMinus (x : Mat) : Mat := ⟨x.h, x.w, fun i j => 1 - x.f i j⟩

/-- Embeds `_blend` (merge.py lines 537-544): level-wise
`mask_i * white_i + (1 - mask_i) * black_i`. -/
def blend_pyramids : List Mat → List Mat → List Mat → List Mat
  | mw :: restw, mb :: restb, mm :: restm =>
      matAdd (matMulPt mm mw) (matMulPt (oneMinus mm) mb)
        :: blend_pyramids restw restb restm
  | _, _, _ => []

/-- Embeds the overlap-geometry classification of `img_merge_pyramid`
(merge.py lines 431-461), returning
`(buffer height, buffer width, wid_ver, wid_hor)`.  The three branches are:
overlap at left and top (`abs(rough_shift[1]) > margin and
abs(rough_shift[0]) > margin`), top only, and left only.  `rough_shift`
components are non-negative integers, so `abs` is the identity.  The
`np.count_nonzero(np.isfinite(...))` scans become `countP Option.isSome`
over the relevant row or column. -/
def pyramid_geom (img1 img2 : OImg) (margin r0 c0 : ℕ) : ℕ × ℕ × ℕ × ℕ :=
  if margin < c0 ∧ margin < r0 then
    let temp0 := if r0 + img2.h ≤ img1.h then img2.h else img1.h - r0
    let temp1 := if c0 + img2.w ≤ img1.w then img2.w else img1.w - c0
    let wid_ver := (List.range temp0).countP
      fun i => (img1.f (r0 + i) (c0 + temp1 - 1)).isSome
    let wid_hor := (List.range temp1).countP
      fun j => (img1.f (r0 + temp0 - 1) (c0 + j)).isSome
    (temp0, temp1, wid_ver, wid_hor)
  else if c0 < margin ∧ margin < r0 then
    let abs_height := (List.range img1.h).countP fun i => (img1.f i margin).isSome
    let wid_ver := abs_height - r0
    let wid_hor := if img2.w < img1.w then img2.w else img2.w - c0
    (wid_ver, wid_hor, wid_ver, wid_hor)
  else
    let abs_width := (List.range img1.w).countP fun j => (img1.f margin j).isSome
    let wid_ver := img2.h - r0
    let wid_hor := abs_width - c0
    (wid_ver, wid_hor, wid_ver, wid_hor)

/-- Embeds the mask construction of `img_merge_pyramid` (merge.py lines
436-443, 451, 459, 462-465, 468): in the two-axis branch the mask starts as
NaN with the first `wid_ver` rows and first `wid_hor` columns set to 1,
otherwise it is all ones; then the half nearer to each active shift axis is
zeroed (`mask2[:, :int(wid_hor/2)] = 0`, `mask2[:wid_ver/2, :] = 0`), and
finally remaining NaN cells default to 1 (`mask2[np.isnan(mask2)] = 1`). -/
def pyramid_mask (img1 img2 : OImg) (margin r0 c0 : ℕ) : Mat :=
  let gm := pyramid_geom img1 img2 margin r0 c0
  ⟨gm.1, gm.2.1, fun i j =>
    (if margin < c0 ∧ j < gm.2.2.2 / 2 then some 0
     else if margin < r0 ∧ i < gm.2.2.1 / 2 then some 0
     else if margin < c0 ∧ margin < r0 then
       (if i < gm.2.2.1 ∨ j < gm.2.2.2 then some (1 : ℚ) else none)
     else some 1).getD 1⟩

/-- Embeds `buffer1` (merge.py lines 444, 452, 460 and the NaN zeroing of
line 467): the slice `img1[corner00 : corner00 + bh, corner01 : corner01 +
bw]` — numpy slicing clips at the array edge — with sentinel entries
replaced by 0. -/
def pyramid_buffer1 (img1 img2 : OImg) (margin r0 c0 : ℕ) : Mat :=
  let gm := pyramid_geom img1 img2 margin r0 c0
  ⟨min img1.h (r0 + gm.1) - r0, min img1.w (c0 + gm.2.1) - c0,
    fun i j => (img1.f (r0 + i) (c0 + j)).getD 0⟩

/-- Embeds `buffer2 = img2[:bh, :bw]` (merge.py lines 445, 453, 461), with
clipping.  Entries are read through `getD 0`; this is faithful whenever
`img2` is sentinel-free on the window (the source keeps NaNs here, and the
value-level theorems below only use sentinel-free `img2`). -/
def pyramid_buffer2 (img1 img2 : OImg) (margin r0 c0 : ℕ) : Mat :=
  let gm := pyramid_geom img1 img2 margin r0 c0
  ⟨min img2.h gm.1, min img2.w gm.2.1, fun i j => (img2.f i j).getD 0⟩

/-- The numeric heart of `img_merge_pyramid` (merge.py lines 469-475):
Gaussian pyramids of the smoothed mask (`G` is the external
`scipy.ndimage.gaussian_filter(..., 20)`) and of both buffers, Laplacian
pyramids, level-wise blending with `img2`'s buffer as the white image, and
the collapse. -/
def pyramid_blend_core (img1 img2 : OImg) (G : Mat → Mat) (margin r0 c0 : ℕ)
    (blur : ℚ) (depth : ℕ) : Mat :=
  collapse
    (blend_pyramids
      (lapl_pyramid (gauss_pyramid depth (pyramid_buffer2 img1 img2 margin r0 c0) blur) blur)
      (lapl_pyramid (gauss_pyramid depth (pyramid_buffer1 img1 img2 margin r0 c0) blur) blur)
      (gauss_pyramid depth (G (pyramid_mask img1 img2 margin r0 c0)) blur)) blur

/-- Embeds the write-back of the blended overlap into the canvas (merge.py
lines 478-484): two sub-rectangles in the two-axis branch, one otherwise. -/
def pyramid_paste_entry (newimg : OImg) (blended : Mat) (margin r0 c0 : ℕ)
    (gm : ℕ × ℕ × ℕ × ℕ) (i j : ℕ) : Option ℚ :=
  if margin < c0 ∧ margin < r0 then
    if (r0 ≤ i ∧ i < r0 + gm.2.2.1 ∧ c0 ≤ j ∧ j < c0 + gm.2.1) ∨
        (r0 + gm.2.2.1 ≤ i ∧ i < r0 + gm.1 ∧ c0 ≤ j ∧ j < c0 + gm.2.2.2) then
      some (blended.f (i - r0) (j - c0))
    else newimg.f i j
  else
    if r0 ≤ i ∧ i < r0 + gm.2.2.1 ∧ c0 ≤ j ∧ j < c0 + gm.2.2.2 then
      some (blended.f (i - r0) (j - c0))
    else newimg.f i j

/-- The non-early-return path of `img_merge_pyramid`. -/
def pyramid_blend_result (img1 img2 : OImg) (shift : ℚ × ℚ) (G : Mat → Mat)
    (margin : ℕ) (blur : ℚ) (depth : ℕ) : OImg :=
  ⟨(arrange_image img1 img2 shift 1).h, (arrange_image img1 img2 shift 1).w,
    pyramid_paste_entry (arrange_image img1 img2 shift 1)
      (pyramid_blend_core img1 img2 G margin
        (get_roughshift shift).1 (get_roughshift shift).2 blur depth)
      margin (get_roughshift shift).1 (get_roughshift shift).2
      (pyramid_geom img1 img2 margin (get_roughshift shift).1 (get_roughshift shift).2)⟩

/-- The default of the `margin` parameter in `img_merge_pyramid`'s own
signature (merge.py line 419). -/
def pyramid_default_margin : ℕ := 100

/-- Embeds `img_merge_pyramid` (merge.py lines 419-487): arrange the
sources, return the plain canvas when both shift magnitudes are below
`margin`, otherwise paste the collapsed blend of the overlap buffers back
into the canvas. -/
def img_merge_pyramid (img1 img2 : OImg) (shift : ℚ × ℚ) (G : Mat → Mat)
    (margin : ℕ) (blur : ℚ) (depth : ℕ) : OImg :=
  if |shift.1| < (margin : ℚ) ∧ |shift.2| < (margin : ℚ) then
    arrange_image img1 img2 shift 1
  else pyramid_blend_result img1 img2 shift G margin blur depth

/-- The state of the caller's `img1` array after `img_merge_pyramid`
returns, at one cell.  `buffer1` is a numpy view into `img1`, so the NaN
zeroing `buffer1[np.isnan(buffer1)] = 0` (merge.py line 467) writes a 0 into
every sentinel cell of `img1` inside the (clipped) buffer window. -/
def pyramid_img1_after_entry (img1 img2 : OImg) (margin r0 c0 : ℕ) (i j : ℕ) : Option ℚ :=
  let gm := pyramid_geom img1 img2 margin r0 c0
  if r0 ≤ i ∧ i < min img1.h (r0 + gm.1) ∧ c0 ≤ j ∧ j < min img1.w (c0 + gm.2.1) ∧
      img1.f i j = none then
    some 0
  else img1.f i j

/-- The state of the caller's `img1` array after `img_merge_pyramid`
returns: unchanged on the early-return path, otherwise mutated per
`pyramid_img1_after_entry`. -/
def pyramid_img1_after (img1 img2 : OImg) (shift : ℚ × ℚ) (margin : ℕ) : OImg :=
  if |shift.1| < (margin : ℚ) ∧ |shift.2| < (margin : ℚ) then img1
  else ⟨img1.h, img1.w,
    pyramid_img1_after_entry img1 img2 margin
      (get_roughshift shift).1 (get_roughshift shift).2⟩

/-- All entries of the total entry function are zero. -/
def zeroEntries (m : Mat) : Prop := ∀ i j, m.f i j = 0

theorem conv2dSymm_zero (a : ℚ) (m : Mat) (hm : zeroEntries m) :
    zeroEntries (conv2dSymm a m) := by
  intro i j
  dsimp only [conv2dSymm]
  refine Finset.sum_eq_zero fun u _ => Finset.sum_eq_zero fun v _ => ?_
  rw [hm]
  ring

theorem ireduce_zero (m : Mat) (blur : ℚ) (hm : zeroEntries m) :
    zeroEntries (ireduce m blur) := by
  intro i j
  exact conv2dSymm_zero blur m hm _ _

theorem iexpand_zero (m : Mat) (blur : ℚ) (hm : zeroEntries m) :
    zeroEntries (iexpand m blur) := by
  intro i j
  dsimp only [iexpand]
  rw [conv2dSymm_zero blur _ ?hz i j, mul_zero]
  case hz =>
    intro i j
    show (if i % 2 = 0 ∧ j % 2 = 0 then m.f (i / 2) (j / 2) else 0) = 0
    split
    · rw [hm]
    · rfl

theorem trimTo_zero (e t : Mat) (he : zeroEntries e) : zeroEntries (trimTo e t) := by
  intro i j
  simp only [trimTo]
  split <;> split <;> exact he _ _

theorem gauss_pyramid_zero : ∀ (n : ℕ) (g : Mat) (blur : ℚ), zeroEntries g →
    ∀ m ∈ gauss_pyramid n g blur, zeroEntries m
  | 0, g, blur, hg, m, hm => by
    simp only [gauss_pyramid, List.mem_singleton] at hm
    rwa [hm]
  | n + 1, g, blur, hg, m, hm => by
    simp only [gauss_pyramid, List.mem_cons] at hm
    rcases hm with hm | hm
    · rwa [hm]
    · exact gauss_pyramid_zero n (ireduce g blur) blur (ireduce_zero g blur hg) m hm

theorem lapl_pyramid_zero : ∀ (xs : List Mat) (blur : ℚ),
    (∀ m ∈ xs, zeroEntries m) → ∀ m ∈ lapl_pyramid xs blur, zeroEntries m
  | [], _, _, m, hm => by simp [lapl_pyramid] at hm
  | [g], _, hall, m, hm => by
    simp only [lapl_pyramid, List.mem_singleton] at hm
    rw [hm]
    exact hall g (by simp)
  | g :: g2 :: rest, blur, hall, m, hm => by
    simp only [lapl_pyramid, List.mem_cons] at hm
    rcases hm with hm | hm
    · rw [hm]
      intro i j
      show g.f i j - (trimTo (iexpand g2 blur) g).f i j = 0
      rw [hall g (by simp),
        trimTo_zero _ g (iexpand_zero g2 blur (hall g2 (by simp))) i j]
      ring
    · exact lapl_pyramid_zero (g2 :: rest) blur
        (fun m hm2 => hall m (List.mem_cons_of_mem g hm2)) m hm

theorem blend_pyramids_zero : ∀ (ws bs ms : List Mat),
    (∀ m ∈ ws, zeroEntries m) → (∀ m ∈ bs, zeroEntries m) →
    ∀ m ∈ blend_pyramids ws bs ms, zeroEntries m
  | w :: restw, b :: restb, mm :: restm, hw, hb, m, hm => by
    simp only [blend_pyramids, List.mem_cons] at hm
    rcases hm with hm | hm
    · rw [hm]
      intro i j
      show mm.f i j * w.f i j + (1 - mm.f i j) * b.f i j = 0
      rw [hw w (by simp), hb b (by simp)]
      ring
    · exact blend_pyramids_zero restw restb restm
        (fun m hm2 => hw m (List.mem_cons_of_mem w hm2))
        (fun m hm2 => hb m (List.mem_cons_of_mem b hm2)) m hm
  | [], _, _, _, _, m, hm => by simp [blend_pyramids] at hm
  | _ :: _, [], _, _, _, m, hm => by simp [blend_pyramids] at hm
  | _ :: _, _ :: _, [], _, _, m, hm => by simp [blend_pyramids] at hm

theorem collapse_steps_zero (blur : ℚ) : ∀ (xs : List Mat) (acc : Mat),
    zeroEntries acc → (∀ m ∈ xs, zeroEntries m) →
    zeroEntries (collapse_steps blur acc xs)
  | [], acc, hacc, _ => hacc
  | m :: rest, acc, hacc, hall => by
    show zeroEntries (collapse_steps blur (matAdd (trimTo (iexpand acc blur) m) m) rest)
    refine collapse_steps_zero blur rest _ ?_
      (fun x hx => hall x (List.mem_cons_of_mem m hx))
    intro i j
    show (trimTo (iexpand acc blur) m).f i j + m.f i j = 0
    rw [trimTo_zero _ m (iexpand_zero acc blur hacc) i j, hall m (by simp)]
    ring

theorem collapse_zero (pyr : List Mat) (blur : ℚ)
    (hall : ∀ m ∈ pyr, zeroEntries m) : zeroEntries (collapse pyr blur) := by
  match pyr with
  | [] => intro i j; rfl
  | [m] => intro i j; rfl
  | m :: m2 :: rest =>
    refine collapse_steps_zero blur _ _ ?_ ?_
    · exact hall _ (List.getLast_mem _)
    · intro x hx
      rw [List.mem_reverse] at hx
      exact hall x (List.dropLast_subset _ hx)

theorem pyramid_blend_core_zero (img1 img2 : OImg) (G : Mat → Mat)
    (margin r0 c0 : ℕ) (blur : ℚ) (depth : ℕ)
    (h1 : ∀ i j, img1.f i j = some 0 ∨ img1.f i j = none)
    (h2 : ∀ i j, img2.f i j = some 0 ∨ img2.f i j = none) :
    zeroEntries (pyramid_blend_core img1 img2 G margin r0 c0 blur depth) := by
  have hb1 : zeroEntries (pyramid_buffer1 img1 img2 margin r0 c0) := by
    intro i j
    show (img1.f (r0 + i) (c0 + j)).getD 0 = 0
    rcases h1 (r0 + i) (c0 + j) with hv | hv <;> rw [hv] <;> rfl
  have hb2 : zeroEntries (pyramid_buffer2 img1 img2 margin r0 c0) := by
    intro i j
    show (img2.f i j).getD 0 = 0
    rcases h2 i j with hv | hv <;> rw [hv] <;> rfl
  exact collapse_zero _ blur
    (blend_pyramids_zero _ _ _
      (lapl_pyramid_zero _ blur (gauss_pyramid_zero depth _ blur hb2))
      (lapl_pyramid_zero _ blur (gauss_pyramid_zero depth _ blur hb1)))

/-- C4 (amended): `img_merge_pyramid` is the one core operation with a frame
effect, and its mutation is confined to sentinel cells: after a call, every
cell of `img1` that held finite data still holds exactly its old value (the
in-place write `buffer1[np.isnan(buffer1)] = 0` goes through a view of
`img1` and overwrites only NaN cells of the buffer window with 0).  The
other strategies and `register_translation` allocate fresh arrays and leave
their inputs intact. -/
theorem pyramid_mutation_only_sentinels (img1 img2 : OImg) (shift : ℚ × ℚ)
    (margin : ℕ) (i j : ℕ) (hfin : img1.f i j ≠ none) :
    (pyramid_img1_after img1 img2 shift margin).f i j = img1.f i j := by
  unfold pyramid_img1_after
  by_cases hearly : |shift.1| < (margin : ℚ) ∧ |shift.2| < (margin : ℚ)
  · rw [if_pos hearly]
  · rw [if_neg hearly]
    show pyramid_img1_after_entry img1 img2 margin
      (get_roughshift shift).1 (get_roughshift shift).2 i j = img1.f i j
    unfold pyramid_img1_after_entry
    rw [if_neg (fun hcon => hfin hcon.2.2.2.2)]

theorem pyramid_mutation_only_sentinels_witness :
    pimg1.f 1 1 ≠ none ∧
    (pyramid_img1_after pimg1 pimg2 (0, 10) 1).f 1 1 = pimg1.f 1 1 := by
  have hfin : pimg1.f 1 1 ≠ none := by simp [pimg1]
  exact ⟨hfin, pyramid_mutation_only_sentinels pimg1 pimg2 (0, 10) 1 1 1 hfin⟩

/-- A 4x4 image with a single sentinel cell at (0, 3), finite elsewhere. -/
def cimg1 : OImg := ⟨4, 4, fun i j => if i = 0 ∧ j = 3 then none else some 1⟩

/-- A 4x4 all-finite tile. -/
def cimg2 : OImg := ⟨4, 4, fun _ _ => some 2⟩

/-- C4 (counterexample): the pyramid blend is not free of shared mutable
state — invoking it with `shift = (0, 2)` and `margin = 1` on `cimg1`
(which carries a sentinel at (0, 3), inside the overlap buffer window)
leaves `img1` holding 0 there instead of the sentinel, so the inputs do not
hold the same values after the call. -/
theorem pyramid_mutates_img1 :
    cimg1.f 0 3 = none ∧
    (pyramid_img1_after cimg1 cimg2 (0, 2) 1).f 0 3 = some 0 ∧
    some (0 : ℚ) ≠ (none : Option ℚ) := by
  refine ⟨by decide, ?_, by simp⟩
  unfold pyramid_img1_after
  rw [if_neg (by norm_num)]
  show pyramid_img1_after_entry cimg1 cimg2 1
    (get_roughshift (0, 2)).1 (get_roughshift (0, 2)).2 0 3 = some 0
  have h1 : (get_roughshift ((0 : ℚ), (2 : ℚ))).1 = 0 := by
    unfold get_roughshift
    norm_num [round_eq]
  have h2 : (get_roughshift ((0 : ℚ), (2 : ℚ))).2 = 2 := by
    unfold get_roughshift
    norm_num [round_eq]
    rfl
  rw [h1, h2]
  decide

/-- C10 (amended): with both per-axis shift magnitudes in `[50, 100)`, the
direct call (using `img_merge_pyramid`'s own signature default
`margin = 100`) takes the early return and produces the plain arranged
canvas, while the dispatched call (whose margin is filled with the
dispatcher default `_get_algorithm_kwargs()['margin'] = 50`) fails the
early-return test and proceeds into the pyramid blending path.  The two
calls therefore run different code paths and use different margins; their
outputs can nevertheless coincide for special inputs (see
`pyramid_margin_same_output`), so "producing different outputs" does not
hold for every input. -/
theorem pyramid_margin_divergence (img1 img2 : OImg) (shift : ℚ × ℚ)
    (G : Mat → Mat) (blur : ℚ) (depth : ℕ)
    (hs1 : 50 ≤ |shift.1| ∧ |shift.1| < 100)
    (hs2 : 50 ≤ |shift.2| ∧ |shift.2| < 100) :
    img_merge_pyramid img1 img2 shift G pyramid_default_margin blur depth
      = arrange_image img1 img2 shift 1 ∧
    get_algorithm_kwargs "margin" = 50 ∧
    img_merge_pyramid img1 img2 shift G 50 blur depth
      = pyramid_blend_result img1 img2 shift G 50 blur depth := by
  refine ⟨?_, rfl, ?_⟩
  · unfold img_merge_pyramid pyramid_default_margin
    rw [if_pos ⟨by push_cast; exact hs1.2, by push_cast; exact hs2.2⟩]
  · unfold img_merge_pyramid
    rw [if_neg (fun hcon => absurd hcon.1 (by push_cast; exact not_lt.mpr hs1.1))]

/-- A 1x1 dummy image for the C10 witness. -/
def wimgA : OImg := ⟨1, 1, fun _ _ => some 3⟩

/-- A second 1x1 dummy image for the C10 witness. -/
def wimgB : OImg := ⟨1, 1, fun _ _ => some 4⟩

theorem pyramid_margin_divergence_witness :
    (50 ≤ |(50 : ℚ)| ∧ |(50 : ℚ)| < 100) ∧
    (img_merge_pyramid wimgA wimgB (50, 50) id pyramid_default_margin (2 / 5) 4
        = arrange_image wimgA wimgB (50, 50) 1 ∧
      get_algorithm_kwargs "margin" = 50 ∧
      img_merge_pyramid wimgA wimgB (50, 50) id 50 (2 / 5) 4
        = pyramid_blend_result wimgA wimgB (50, 50) id 50 (2 / 5) 4) := by
  have hs : 50 ≤ |(50 : ℚ)| ∧ |(50 : ℚ)| < 100 := by norm_num
  exact ⟨hs, pyramid_margin_divergence wimgA wimgB (50, 50) id (2 / 5) 4 hs hs⟩

/-- A 66x66 all-zero image. -/
def zimg : OImg := ⟨66, 66, fun _ _ => some 0⟩

/-- C10 (counterexample): for the all-zero 66x66 pair at shift `(50, 50)` —
whose per-axis magnitudes lie in `[50, 100)` — the direct call with its
default margin and the dispatched call with margin 50 return the same
canvas: the blended overlap patch of an all-zero pair is identically zero
and is pasted over zeros, so "producing different outputs for identical
image inputs" fails. -/
theorem pyramid_margin_same_output :
    (50 ≤ |(50 : ℚ)| ∧ |(50 : ℚ)| < 100) ∧
    img_merge_pyramid zimg zimg (50, 50) id pyramid_default_margin (2 / 5) 4
      = img_merge_pyramid zimg zimg (50, 50) id 50 (2 / 5) 4 := by
  refine ⟨by norm_num, ?_⟩
  have hrs : get_roughshift ((50 : ℚ), (50 : ℚ)) = (50, 50) := by
    unfold get_roughshift
    norm_num [round_eq]
    rfl
  have hzero : zeroEntries (pyramid_blend_core zimg zimg id 50 50 50 (2 / 5) 4) :=
    pyramid_blend_core_zero zimg zimg id 50 50 50 (2 / 5) 4
      (fun i j => Or.inl rfl) (fun i j => Or.inl rfl)
  have hcanvas : ∀ i j, i < 66 → j < 66 →
      (arrange_image zimg zimg (50, 50) 1).f i j = some 0 := by
    intro i j hi hj
    show (if (i < zimg.h ∧ j < zimg.w) ∧ _ then zimg.f i j else _) = some 0
    rw [if_pos ⟨⟨hi, hj⟩, Or.inl rfl⟩]
    rfl
  have hgm : pyramid_geom zimg zimg 50 50 50 = (16, 16, 16, 16) := by decide
  unfold img_merge_pyramid
  rw [if_pos (by norm_num [pyramid_default_margin]), if_neg (by norm_num)]
  unfold pyramid_blend_result
  refine OImg.ext rfl rfl ?_
  funext i j
  rw [hrs]
  show (arrange_image zimg zimg (50, 50) 1).f i j =
    pyramid_paste_entry (arrange_image zimg zimg (50, 50) 1)
      (pyramid_blend_core zimg zimg id 50 50 50 (2 / 5) 4) 50 50 50
      (pyramid_geom zimg zimg 50 50 50) i j
  rw [hgm]
  unfold pyramid_paste_entry
  dsimp only
  rw [if_neg (by norm_num)]
  by_cases hin : 50 ≤ i ∧ i < 50 + 16 ∧ 50 ≤ j ∧ j < 50 + 16
  · rw [if_pos hin, hzero (i - 50) (j - 50)]
    rw [hcanvas i j (by omega) (by omega)]
  · rw [if_neg hin]
